import Mathlib

/-!
Verification of `improve_baseline_svhn.py` (DP-SGD fine-tuning with active
learning).  The numerical pipeline is shallowly embedded over exact reals:
per-parameter tensors become lists of real scalars, gradient trees become
lists of tensors (the output of `tree_util.tree_flatten`), and the JAX PRNG
(`random.normal`, `random.fold_in`, `random.PRNGKey`) is an abstract model
quantified over in every theorem.
-/

namespace AdpSvhn

/-- A parameter tensor, flattened to its list of scalar components
(what `neg.ravel()` produces in the source). -/
abbrev Tensor := List ℝ

/-- A gradient tree as flattened by `tree_util.tree_flatten`: the ordered
list of per-parameter tensors (`nonempty_grads` in the source). -/
abbrev GradTree := List Tensor

/-- Sum of the squared components of a tensor. -/
def sumSq (v : Tensor) : ℝ := (v.map (fun x => x ^ 2)).sum

/-- Embedding of `np.linalg.norm(neg.ravel())`: the Euclidean norm of a
flattened tensor. -/
noncomputable def l2norm (v : Tensor) : ℝ := Real.sqrt (sumSq v)

/-- Embedding of `total_grad_norm` in `_clipped_grad`: the norm of the list
of per-tensor norms, `np.linalg.norm([np.linalg.norm(neg.ravel()) for neg
in nonempty_grads])`. -/
noncomputable def totalGradNorm (g : GradTree) : ℝ := l2norm (g.map l2norm)

/-- Embedding of `divisor = stop_gradient(np.amax((total_grad_norm /
l2_norm_clip, 1.)))` in `_clipped_grad`.  (`stop_gradient` only affects
differentiation, not the value.) -/
noncomputable def clipDivisor (l2_norm_clip : ℝ) (g : GradTree) : ℝ :=
  max (totalGradNorm g / l2_norm_clip) 1

/-- Embedding of `normalized_nonempty_grads = [g / divisor for g in
nonempty_grads]` in `_clipped_grad`: every component of every tensor is
divided by the (tree-global) clip divisor. -/
noncomputable def clippedGrad (l2_norm_clip : ℝ) (g : GradTree) : GradTree :=
  g.map (fun t => t.map (fun x => x / clipDivisor l2_norm_clip g))

lemma sumSq_nonneg (v : Tensor) : 0 ≤ sumSq v := by
  refine List.sum_nonneg ?_
  intro x hx
  rcases List.mem_map.mp hx with ⟨y, _, rfl⟩
  positivity

lemma l2norm_nonneg (v : Tensor) : 0 ≤ l2norm v := Real.sqrt_nonneg _

lemma sq_l2norm (v : Tensor) : l2norm v ^ 2 = sumSq v :=
  Real.sq_sqrt (sumSq_nonneg v)

lemma sum_map_div (l : List ℝ) (d : ℝ) :
    (l.map (fun x => x / d)).sum = l.sum / d := by
  induction l with
  | nil => simp
  | cons x xs ih => simp [ih, add_div]

lemma sumSq_map_div (v : Tensor) (d : ℝ) :
    sumSq (v.map (fun x => x / d)) = sumSq v / d ^ 2 := by
  unfold sumSq
  rw [List.map_map]
  have : ((fun x => x ^ 2) ∘ fun x => x / d) = fun x => x ^ 2 / d ^ 2 := by
    funext x
    simp [div_pow]
  rw [this, ← sum_map_div (v.map (fun x => x ^ 2)) (d ^ 2), List.map_map]
  rfl

lemma l2norm_map_div (v : Tensor) {d : ℝ} (hd : 0 < d) :
    l2norm (v.map (fun x => x / d)) = l2norm v / d := by
  unfold l2norm
  rw [sumSq_map_div, Real.sqrt_div (sumSq_nonneg v), Real.sqrt_sq hd.le]

lemma sumSq_flatten (L : List Tensor) : sumSq L.flatten = (L.map sumSq).sum := by
  unfold sumSq
  rw [List.map_flatten, List.sum_flatten, List.map_map]
  rfl

/-- The norm used for clipping is one global norm: the nested norm-of-norms
equals the Euclidean norm of the fully flattened (concatenated) gradient. -/
lemma totalGradNorm_eq_flatten (g : GradTree) :
    totalGradNorm g = l2norm g.flatten := by
  show Real.sqrt (sumSq (g.map l2norm)) = Real.sqrt (sumSq g.flatten)
  congr 1
  rw [sumSq_flatten]
  show ((g.map l2norm).map (fun x => x ^ 2)).sum = _
  rw [List.map_map]
  congr 1
  apply List.map_congr_left
  intro t _
  exact sq_l2norm t

lemma clipDivisor_pos (C : ℝ) (g : GradTree) : 0 < clipDivisor C g :=
  lt_of_lt_of_le one_pos (le_max_right _ _)

lemma totalGradNorm_clippedGrad (C : ℝ) (g : GradTree) :
    totalGradNorm (clippedGrad C g) = totalGradNorm g / clipDivisor C g := by
  have hd := clipDivisor_pos C g
  unfold clippedGrad totalGradNorm
  rw [List.map_map]
  have : (l2norm ∘ fun t => t.map (fun x => x / clipDivisor C g))
      = fun t => l2norm t / clipDivisor C g := by
    funext t
    simp [Function.comp, l2norm_map_div t hd]
  rw [this]
  have h2 : (fun t => l2norm t / clipDivisor C g)
      = (fun x => x / clipDivisor C g) ∘ l2norm := rfl
  rw [h2, ← List.map_map, l2norm_map_div _ hd]

/-- C2: for each example, clipping computes one global L2 norm over all
flattened gradient components combined into a single vector (not per-layer
norms); a gradient with norm at most `C` is returned unchanged (the divisor
is `1`), and a gradient with norm above `C` is rescaled by
`1 / (total_norm / C)` so its global norm is exactly `C`. -/
theorem clipped_grad_spec (C : ℝ) (hC : 0 < C) (g : GradTree) :
    totalGradNorm g = l2norm g.flatten ∧
    (totalGradNorm g ≤ C → clipDivisor C g = 1 ∧ clippedGrad C g = g) ∧
    (C < totalGradNorm g → clipDivisor C g = totalGradNorm g / C ∧
      totalGradNorm (clippedGrad C g) = C) := by
  refine ⟨totalGradNorm_eq_flatten g, ?_, ?_⟩
  · intro hle
    have hdiv : clipDivisor C g = 1 := by
      unfold clipDivisor
      rw [max_eq_right]
      exact div_le_one_of_le₀ hle hC.le
    refine ⟨hdiv, ?_⟩
    unfold clippedGrad
    rw [hdiv]
    simp
  · intro hgt
    have hone : 1 ≤ totalGradNorm g / C := by
      rw [le_div_iff₀ hC]
      simpa using hgt.le
    have hdiv : clipDivisor C g = totalGradNorm g / C := by
      unfold clipDivisor
      exact max_eq_left hone
    refine ⟨hdiv, ?_⟩
    rw [totalGradNorm_clippedGrad, hdiv]
    have hN : totalGradNorm g ≠ 0 := by
      have : (0 : ℝ) < totalGradNorm g := lt_trans hC hgt
      exact this.ne'
    field_simp

/-- Witness for `clipped_grad_spec` at `C = 1`, `g = [[3], [4]]`. -/
theorem clipped_grad_spec_witness :
    (0 : ℝ) < 1 ∧
    (totalGradNorm [[(3 : ℝ)], [4]] = l2norm ([[(3 : ℝ)], [4]] : GradTree).flatten ∧
    (totalGradNorm [[(3 : ℝ)], [4]] ≤ 1 →
      clipDivisor 1 [[(3 : ℝ)], [4]] = 1 ∧ clippedGrad 1 [[(3 : ℝ)], [4]] = [[(3 : ℝ)], [4]]) ∧
    (1 < totalGradNorm [[(3 : ℝ)], [4]] →
      clipDivisor 1 [[(3 : ℝ)], [4]] = totalGradNorm [[(3 : ℝ)], [4]] / 1 ∧
      totalGradNorm (clippedGrad 1 [[(3 : ℝ)], [4]]) = 1)) :=
  ⟨by norm_num, clipped_grad_spec 1 (by norm_num) [[(3 : ℝ)], [4]]⟩

/-- Abstract model of the JAX PRNG functions used by the source
(`random.normal`, `random.fold_in`, `random.PRNGKey`).  Keys are opaque
naturals; `normal key n` is the vector of `n` standard-normal draws that
`random.normal(key, shape)` produces for a tensor of `n` elements.  Every
theorem quantifies over the model. -/
structure PRNGModel where
  normal : ℕ → ℕ → Tensor
  foldIn : ℕ → ℕ → ℕ
  prngKey : ℕ → ℕ

/-- The per-example clipping map `px_clipped_grad_fn =
vmap(partial(_clipped_grad, params))` applied to the batch: each example's
gradient tree (`grad_loss` on the single-example batch, abstracted as
`gradLoss`) is clipped independently. -/
noncomputable def clipStage {P Ex : Type} (gradLoss : P → Ex → GradTree)
    (params : P) (l2_norm_clip : ℝ) (batch : List Ex) : List GradTree :=
  batch.map (fun ex => clippedGrad l2_norm_clip (gradLoss params ex))

/-- Pointwise sum of two gradient trees. -/
def treeAdd (g h : GradTree) : GradTree :=
  List.zipWith (List.zipWith (· + ·)) g h

/-- The aggregation `tree_map(lambda n: np.sum(n, 0), px_clipped_grad_fn(batch))`:
per-parameter sum of the clipped per-example gradient trees over the batch
axis. -/
def treeSum : List GradTree → GradTree
  | [] => []
  | [g] => g
  | g :: gs => treeAdd g (treeSum gs)

/-- The noising step `tree_map(lambda n: n + std_dev * random.normal(rng,
n.shape), ...)`.  Note that the source passes the SAME `rng` to
`random.normal` for every tensor of the tree. -/
noncomputable def noiseStage (M : PRNGModel) (rng : ℕ) (std_dev : ℝ)
    (g : GradTree) : GradTree :=
  g.map (fun t => List.zipWith (fun a b => a + std_dev * b) t (M.normal rng t.length))

/-- Map a scalar function over every component of a gradient tree. -/
def treeMap (f : ℝ → ℝ) (g : GradTree) : GradTree := g.map (List.map f)

/-- The final step `tree_map(lambda n: n / float(batch_size), ...)`. -/
noncomputable def normalizeStage (batch_size : ℕ) (g : GradTree) : GradTree :=
  treeMap (fun x => x / (batch_size : ℝ)) g

/-- Embedding of `private_grad(params, batch, rng, l2_norm_clip,
noise_multiplier, batch_size)`: clip each per-example gradient, sum over
the batch axis, add `std_dev = l2_norm_clip * noise_multiplier` scaled
noise, divide by `batch_size`. -/
noncomputable def private_grad {P Ex : Type} (M : PRNGModel)
    (gradLoss : P → Ex → GradTree) (params : P) (batch : List Ex) (rng : ℕ)
    (l2_norm_clip noise_multiplier : ℝ) (batch_size : ℕ) : GradTree :=
  let aggregated_clipped_grads :=
    treeSum (batch.map (fun ex => clippedGrad l2_norm_clip (gradLoss params ex)))
  let std_dev := l2_norm_clip * noise_multiplier
  let noised_aggregated_clipped_grads :=
    aggregated_clipped_grads.map
      (fun t => List.zipWith (fun a b => a + std_dev * b) t (M.normal rng t.length))
  noised_aggregated_clipped_grads.map (fun t => t.map (fun x => x / (batch_size : ℝ)))

lemma zipWith_add_zero (t s : Tensor) (h : s.length = t.length) :
    List.zipWith (fun a b => a + (0 : ℝ) * b) t s = t := by
  induction t generalizing s with
  | nil => simp
  | cons x xs ih =>
    cases s with
    | nil => simp at h
    | cons y ys =>
      calc List.zipWith (fun a b => a + (0 : ℝ) * b) (x :: xs) (y :: ys)
          = (x + 0 * y) :: List.zipWith (fun a b => a + (0 : ℝ) * b) xs ys := rfl
        _ = x :: xs := by rw [show x + (0 : ℝ) * y = x from by ring,
            ih ys (by simpa using h)]

lemma noiseStage_zero (M : PRNGModel) (rng : ℕ)
    (hM : ∀ k n, (M.normal k n).length = n) (g : GradTree) :
    noiseStage M rng 0 g = g := by
  unfold noiseStage
  rw [List.map_congr_left (g := id) ?_, List.map_id]
  intro t _
  simpa using zipWith_add_zero t (M.normal rng t.length) (hM rng t.length)

lemma treeMap_treeMap (f h : ℝ → ℝ) (g : GradTree) :
    treeMap f (treeMap h g) = treeMap (fun x => f (h x)) g := by
  simp [treeMap, List.map_map, Function.comp_def]

lemma l2norm_single (a : ℝ) : l2norm [a] = |a| := by
  unfold l2norm sumSq
  simp [Real.sqrt_sq_eq_abs]

lemma totalGradNorm_single (a : ℝ) : totalGradNorm [[a]] = |a| := by
  unfold totalGradNorm
  simp only [List.map_cons, List.map_nil, l2norm_single]
  exact abs_abs a

/-- C1: `private_grad` is exactly per-example clipping, then per-parameter
summation over the batch axis, then addition of noise with standard
deviation `l2_norm_clip * noise_multiplier`, then division by
`batch_size`; with zero noise multiplier, `batch_size = 2`, clip norm `1`
and two examples of gradient norms `3` and `1/2`, the divisors are `3` and
`1`, the clipped norms `1` and `1/2`, and the result is the plain average
of the two clipped per-example gradients. -/
theorem private_grad_order_and_avg {P Ex : Type} (M : PRNGModel)
    (gradLoss : P → Ex → GradTree) (params : P) (rng : ℕ)
    (hM : ∀ k n, (M.normal k n).length = n) (e₁ e₂ : Ex)
    (h₁ : totalGradNorm (gradLoss params e₁) = 3)
    (h₂ : totalGradNorm (gradLoss params e₂) = 1 / 2) :
    (∀ (batch : List Ex) (C σ : ℝ) (B : ℕ),
      private_grad M gradLoss params batch rng C σ B
        = normalizeStage B (noiseStage M rng (C * σ)
            (treeSum (clipStage gradLoss params C batch)))) ∧
    clipDivisor 1 (gradLoss params e₁) = 3 ∧
    clipDivisor 1 (gradLoss params e₂) = 1 ∧
    totalGradNorm (clippedGrad 1 (gradLoss params e₁)) = 1 ∧
    totalGradNorm (clippedGrad 1 (gradLoss params e₂)) = 1 / 2 ∧
    private_grad M gradLoss params [e₁, e₂] rng 1 0 2
      = treeMap (fun x => x / 2)
          (treeAdd (clippedGrad 1 (gradLoss params e₁))
            (clippedGrad 1 (gradLoss params e₂))) := by
  have hd₁ : clipDivisor 1 (gradLoss params e₁) = 3 := by
    unfold clipDivisor
    rw [h₁]
    norm_num
  have hd₂ : clipDivisor 1 (gradLoss params e₂) = 1 := by
    unfold clipDivisor
    rw [h₂]
    norm_num
  refine ⟨fun _ _ _ _ => rfl, hd₁, hd₂, ?_, ?_, ?_⟩
  · rw [totalGradNorm_clippedGrad, hd₁, h₁]
    norm_num
  · rw [totalGradNorm_clippedGrad, hd₂, h₂]
    norm_num
  · have hstep : private_grad M gradLoss params [e₁, e₂] rng 1 0 2
        = normalizeStage 2 (noiseStage M rng ((1 : ℝ) * 0)
            (treeAdd (clippedGrad 1 (gradLoss params e₁))
              (clippedGrad 1 (gradLoss params e₂)))) := rfl
    rw [hstep, show (1 : ℝ) * 0 = 0 from mul_zero 1, noiseStage_zero M rng hM]
    unfold normalizeStage
    have hfun : (fun x : ℝ => x / ((2 : ℕ) : ℝ)) = fun x : ℝ => x / 2 := by
      funext x
      norm_num
    rw [hfun]

/-- Concrete PRNG model used by witnesses: all draws are zero, key folding
is addition. -/
def wPRNG : PRNGModel :=
  ⟨fun _ n => List.replicate n 0, fun k i => k + i, fun s => s⟩

/-- Gradient oracle used by witnesses: one single-component tensor whose
value is `3` on example `true` and `1/2` on example `false`. -/
noncomputable def wGradLoss : Unit → Bool → GradTree :=
  fun _ e => if e then [[3]] else [[1 / 2]]

lemma wPRNG_normal_length : ∀ k n, (wPRNG.normal k n).length = n := by
  intro k n
  simp [wPRNG]

/-- Witness for `private_grad_order_and_avg` on the concrete model. -/
theorem private_grad_order_and_avg_witness :
    ((∀ k n, (wPRNG.normal k n).length = n) ∧
      totalGradNorm (wGradLoss () true) = 3 ∧
      totalGradNorm (wGradLoss () false) = 1 / 2) ∧
    private_grad wPRNG wGradLoss () [true, false] 0 1 0 2
      = treeMap (fun x => x / 2)
          (treeAdd (clippedGrad 1 (wGradLoss () true))
            (clippedGrad 1 (wGradLoss () false))) := by
  have h₁ : totalGradNorm (wGradLoss () true) = 3 := by
    rw [show wGradLoss () true = [[3]] from rfl, totalGradNorm_single]
    norm_num
  have h₂ : totalGradNorm (wGradLoss () false) = 1 / 2 := by
    rw [show wGradLoss () false = [[1 / 2]] from rfl, totalGradNorm_single]
    norm_num
  exact ⟨⟨wPRNG_normal_length, h₁, h₂⟩,
    (private_grad_order_and_avg wPRNG wGradLoss () 0 wPRNG_normal_length
      true false h₁ h₂).2.2.2.2.2⟩

/-- C10: `private_grad` always divides the noised sum by the `batch_size`
argument `B`; on a batch of `n < B` examples with zero noise multiplier the
returned tree is the true mean of the clipped per-example gradients scaled
down by `n / B`. -/
theorem private_grad_short_batch {P Ex : Type} (M : PRNGModel)
    (gradLoss : P → Ex → GradTree) (params : P) (rng : ℕ)
    (batch : List Ex) (C : ℝ) (n B : ℕ)
    (hM : ∀ k n, (M.normal k n).length = n)
    (hn : batch.length = n) (hn0 : 0 < n) (hnB : n < B) :
    (∀ σ : ℝ, private_grad M gradLoss params batch rng C σ B
      = normalizeStage B (noiseStage M rng (C * σ)
          (treeSum (clipStage gradLoss params C batch)))) ∧
    private_grad M gradLoss params batch rng C 0 B
      = treeMap (fun x => (n : ℝ) / (B : ℝ) * x)
          (treeMap (fun x => x / (n : ℝ))
            (treeSum (clipStage gradLoss params C batch))) := by
  refine ⟨fun _ => rfl, ?_⟩
  have hstep : private_grad M gradLoss params batch rng C 0 B
      = normalizeStage B (noiseStage M rng (C * 0)
          (treeSum (clipStage gradLoss params C batch))) := rfl
  rw [hstep, mul_zero, noiseStage_zero M rng hM, normalizeStage, treeMap_treeMap]
  have hne : ((n : ℝ)) ≠ 0 := Nat.cast_ne_zero.mpr hn0.ne'
  have hBe : ((B : ℝ)) ≠ 0 := Nat.cast_ne_zero.mpr (lt_of_le_of_lt (Nat.zero_le n) hnB).ne'
  have hfun : (fun x : ℝ => x / (B : ℝ))
      = fun x : ℝ => (n : ℝ) / (B : ℝ) * (x / (n : ℝ)) := by
    funext x
    field_simp
    ring
  rw [hfun]

/-- Gradient oracle used by the short-batch witness. -/
noncomputable def wGradLossB : Unit → Unit → GradTree := fun _ _ => [[1]]

/-- Witness for `private_grad_short_batch`: a batch of one example with
`batch_size = 2`. -/
theorem private_grad_short_batch_witness :
    ((∀ k n, (wPRNG.normal k n).length = n) ∧
      ([()] : List Unit).length = 1 ∧ 0 < 1 ∧ 1 < 2) ∧
    private_grad wPRNG wGradLossB () [()] 0 1 0 2
      = treeMap (fun x => ((1 : ℕ) : ℝ) / ((2 : ℕ) : ℝ) * x)
          (treeMap (fun x => x / ((1 : ℕ) : ℝ))
            (treeSum (clipStage wGradLossB () 1 [()]))) :=
  ⟨⟨wPRNG_normal_length, rfl, by decide, by decide⟩,
    (private_grad_short_batch wPRNG wGradLossB () 0 [()] 1 1 2
      wPRNG_normal_length rfl (by decide) (by decide)).2⟩

/-- C3 (code bug exhibit): the noising step of `private_grad` applies
`random.normal(rng, n.shape)` with one and the same `rng` to every tensor
of the gradient tree, so any two tensors of equal shape receive exactly the
same draw `M.normal rng (t₁.length)` — not fresh independent randomness
per parameter tensor. -/
theorem noise_reuses_single_rng (M : PRNGModel) (rng : ℕ) (std_dev : ℝ)
    (t₁ t₂ : Tensor) (h : t₁.length = t₂.length) :
    noiseStage M rng std_dev [t₁, t₂]
      = [List.zipWith (fun a b => a + std_dev * b) t₁ (M.normal rng t₁.length),
         List.zipWith (fun a b => a + std_dev * b) t₂ (M.normal rng t₁.length)] := by
  unfold noiseStage
  rw [List.map_cons, List.map_cons, List.map_nil, h]

/-- Witness for `noise_reuses_single_rng` at two distinct one-element
tensors. -/
theorem noise_reuses_single_rng_witness :
    ([(0 : ℝ)].length = [(1 : ℝ)].length) ∧
    noiseStage wPRNG 0 1 [[(0 : ℝ)], [(1 : ℝ)]]
      = [List.zipWith (fun a b => a + 1 * b) [(0 : ℝ)] (wPRNG.normal 0 [(0 : ℝ)].length),
         List.zipWith (fun a b => a + 1 * b) [(1 : ℝ)] (wPRNG.normal 0 [(0 : ℝ)].length)] :=
  ⟨rfl, noise_reuses_single_rng wPRNG 0 1 [0] [1] rfl⟩

/-- Embedding of `private_update(rng, i, opt_state, batch)` from `main`:
`rng = random.fold_in(rng, i)` derives the per-step key, then
`opt_update(i, private_grad(params, batch, rng, ...), opt_state)`. -/
noncomputable def private_update {P Ex O : Type} (M : PRNGModel)
    (opt_update : ℕ → GradTree → O → O) (get_params : O → P)
    (gradLoss : P → Ex → GradTree) (rng : ℕ) (i : ℕ) (opt_state : O)
    (batch : List Ex) (l2_norm_clip noise_multiplier : ℝ)
    (batch_size : ℕ) : O :=
  opt_update i
    (private_grad M gradLoss (get_params opt_state) batch (M.foldIn rng i)
      l2_norm_clip noise_multiplier batch_size)
    opt_state

/-- Embedding of the random criterion in `main`: `npr.seed(FLAGS.seed)` at
program start, then `pool_uncertain_indices =
npr.permutation(n_pool)[:FLAGS.n_extra]`.  The NumPy global generator is
modelled as the abstract function `permutation` of the seed it was last
seeded with; nothing else consumes the generator before the selection. -/
def selectedRandomIndices (permutation : ℕ → ℕ → List ℕ)
    (seed n_pool n_extra : ℕ) : List ℕ :=
  (permutation seed n_pool).take n_extra

/-- C7: the key used by `private_update` at step `i` is
`fold_in(base_key, i)` where the base key is `PRNGKey(seed)`, so the noise
of every step is a deterministic function of the explicit seed and the
step index — two runs with the same seed take identical private updates —
and the random sampling criterion's selected indices are a deterministic
function of the explicit seed. -/
theorem randomness_from_explicit_seed {P Ex O : Type} (M : PRNGModel)
    (opt_update : ℕ → GradTree → O → O) (get_params : O → P)
    (gradLoss : P → Ex → GradTree)
    (permutation : ℕ → ℕ → List ℕ) (seed seed' : ℕ) (i : ℕ)
    (opt_state : O) (batch : List Ex) (C σ : ℝ) (B n_pool n_extra : ℕ)
    (h : seed = seed') :
    (private_update M opt_update get_params gradLoss (M.prngKey seed) i
        opt_state batch C σ B
      = opt_update i
          (private_grad M gradLoss (get_params opt_state) batch
            (M.foldIn (M.prngKey seed) i) C σ B)
          opt_state) ∧
    private_update M opt_update get_params gradLoss (M.prngKey seed) i
        opt_state batch C σ B
      = private_update M opt_update get_params gradLoss (M.prngKey seed') i
          opt_state batch C σ B ∧
    selectedRandomIndices permutation seed n_pool n_extra
      = selectedRandomIndices permutation seed' n_pool n_extra := by
  subst h
  exact ⟨rfl, rfl, rfl⟩

/-- Witness for `randomness_from_explicit_seed` at seed `5` on the
concrete model. -/
theorem randomness_from_explicit_seed_witness :
    (5 = 5) ∧
    ((private_update wPRNG (fun _ _ s => s) (fun _ => ()) wGradLossB
        (wPRNG.prngKey 5) 0 () [()] 1 1 2
      = (fun _ _ (s : Unit) => s) 0
          (private_grad wPRNG wGradLossB ((fun _ => ()) ()) [()]
            (wPRNG.foldIn (wPRNG.prngKey 5) 0) 1 1 2)
          ()) ∧
    private_update wPRNG (fun _ _ s => s) (fun _ => ()) wGradLossB
        (wPRNG.prngKey 5) 0 () [()] 1 1 2
      = private_update wPRNG (fun _ _ s => s) (fun _ => ()) wGradLossB
          (wPRNG.prngKey 5) 0 () [()] 1 1 2 ∧
    selectedRandomIndices (fun _ n => List.range n) 5 10 3
      = selectedRandomIndices (fun _ n => List.range n) 5 10 3) :=
  ⟨rfl, randomness_from_explicit_seed wPRNG (fun _ _ s => s) (fun _ => ())
    wGradLossB (fun _ n => List.range n) 5 5 0 () [()] 1 1 2 10 3 rfl⟩

/-- Comparison of pool indices by their scores, the order `onp.argsort`
sorts by. -/
def scoreLe {α : Type} [LinearOrder α] [Inhabited α] (s : List α)
    (i j : ℕ) : Prop :=
  s.getD i default ≤ s.getD j default

instance scoreLeDecidable {α : Type} [LinearOrder α] [Inhabited α]
    (s : List α) : DecidableRel (scoreLe s) :=
  fun i j => inferInstanceAs (Decidable (_ ≤ _))

instance scoreLeTotal {α : Type} [LinearOrder α] [Inhabited α]
    (s : List α) : IsTotal ℕ (scoreLe s) :=
  ⟨fun i j => le_total _ _⟩

instance scoreLeTrans {α : Type} [LinearOrder α] [Inhabited α]
    (s : List α) : IsTrans ℕ (scoreLe s) :=
  ⟨fun _ _ _ h h' => le_trans h h'⟩

/-- Embedding of `onp.argsort(s)`: a permutation of the index range of `s`
sorted so that scores are ascending. -/
def argsort {α : Type} [LinearOrder α] [Inhabited α] (s : List α) : List ℕ :=
  List.insertionSort (scoreLe s) (List.range s.length)

lemma argsort_perm {α : Type} [LinearOrder α] [Inhabited α] (s : List α) :
    (argsort s).Perm (List.range s.length) :=
  List.perm_insertionSort _ _

lemma argsort_sorted {α : Type} [LinearOrder α] [Inhabited α] (s : List α) :
    List.Sorted (scoreLe s) (argsort s) :=
  List.sorted_insertionSort _ _

lemma argsort_length {α : Type} [LinearOrder α] [Inhabited α] (s : List α) :
    (argsort s).length = s.length := by
  rw [(argsort_perm s).length_eq, List.length_range]

/-- If a pairwise-`R` list is a permutation of `range n`, every element of
its `k`-prefix is `R`-related to every one of the `n` indices outside that
prefix. -/
lemma take_pairwise_dominates {R : ℕ → ℕ → Prop} {l : List ℕ} {n k : ℕ}
    (hp : List.Pairwise R l) (hperm : l.Perm (List.range n)) :
    ∀ i ∈ l.take k, ∀ j, j < n → j ∉ l.take k → R i j := by
  intro i hi j hj hnot
  have hjl : j ∈ l := hperm.mem_iff.mpr (List.mem_range.mpr hj)
  rw [← List.take_append_drop k l] at hjl hp
  rcases List.mem_append.mp hjl with hcase | hcase
  · exact absurd hcase hnot
  · exact (List.pairwise_append.mp hp).2.2 i hi j hcase

/-- Embedding of `stax.softmax` on one row of logits. -/
noncomputable def softmaxRow (row : List ℝ) : List ℝ :=
  row.map (fun x => Real.exp x / (row.map Real.exp).sum)

/-- Embedding of one row of `-onp.sum(pool_probs * onp.log(pool_probs),
axis=1)`. -/
noncomputable def entropyOfProbs (ps : List ℝ) : ℝ :=
  -((ps.map (fun p => p * Real.log p)).sum)

/-- The per-example entropy scores `pool_entropy` computed from the
softmax probabilities of the pool logits. -/
noncomputable def poolEntropy (pool_logits : List (List ℝ)) : List ℝ :=
  (pool_logits.map softmaxRow).map entropyOfProbs

/-- Embedding of the entropy criterion:
`pool_entropy_sorted_indices[::-1][:FLAGS.n_extra]` — the ascending
argsort of the entropies, reversed, truncated to `n_extra`. -/
noncomputable def entropySelect (pool_logits : List (List ℝ))
    (n_extra : ℕ) : List ℕ :=
  ((argsort (poolEntropy pool_logits)).reverse).take n_extra

/-- C5: the entropy criterion scores pool examples by the entropy of their
softmax probabilities and, whenever `k` is at most the pool size, returns
exactly `k` distinct indices whose entropies dominate the entropy of every
non-returned index. -/
theorem entropy_select_spec (pool_logits : List (List ℝ)) (k : ℕ)
    (hk : k ≤ pool_logits.length) :
    (entropySelect pool_logits k).length = k ∧
    (entropySelect pool_logits k).Nodup ∧
    ∀ i ∈ entropySelect pool_logits k, ∀ j, j < pool_logits.length →
      j ∉ entropySelect pool_logits k →
      (poolEntropy pool_logits).getD j 0 ≤ (poolEntropy pool_logits).getD i 0 := by
  have hslen : (poolEntropy pool_logits).length = pool_logits.length := by
    simp [poolEntropy]
  have hrevperm : ((argsort (poolEntropy pool_logits)).reverse).Perm
      (List.range (poolEntropy pool_logits).length) :=
    ((argsort (poolEntropy pool_logits)).reverse_perm).trans
      (argsort_perm (poolEntropy pool_logits))
  refine ⟨?_, ?_, ?_⟩
  · rw [entropySelect, List.length_take, List.length_reverse, argsort_length,
      hslen]
    exact min_eq_left hk
  · exact (List.Sublist.nodup (List.take_sublist _ _)
      (hrevperm.nodup_iff.mpr (List.nodup_range _)))
  · have hpair : ((argsort (poolEntropy pool_logits)).reverse).Pairwise
        (fun i j => scoreLe (poolEntropy pool_logits) j i) :=
      List.pairwise_reverse.mpr (argsort_sorted (poolEntropy pool_logits))
    intro i hi j hj hjnot
    have := take_pairwise_dominates hpair hrevperm i hi j
      (by rw [hslen]; exact hj) hjnot
    simpa [scoreLe, default] using this

/-- Witness for `entropy_select_spec` on a pool of ten examples with
`k = 3`. -/
theorem entropy_select_spec_witness :
    3 ≤ (List.replicate 10 [(0 : ℝ), 1]).length ∧
    ((entropySelect (List.replicate 10 [(0 : ℝ), 1]) 3).length = 3 ∧
    (entropySelect (List.replicate 10 [(0 : ℝ), 1]) 3).Nodup ∧
    ∀ i ∈ entropySelect (List.replicate 10 [(0 : ℝ), 1]) 3, ∀ j,
      j < (List.replicate 10 [(0 : ℝ), 1]).length →
      j ∉ entropySelect (List.replicate 10 [(0 : ℝ), 1]) 3 →
      (poolEntropy (List.replicate 10 [(0 : ℝ), 1])).getD j 0
        ≤ (poolEntropy (List.replicate 10 [(0 : ℝ), 1])).getD i 0) :=
  ⟨by simp, entropy_select_spec (List.replicate 10 [(0 : ℝ), 1]) 3 (by simp)⟩

/-- Embedding of `onp.sort(pool_probs, axis=1)` on one row: the row sorted
ascending. -/
def sortedRow {α : Type} [LinearOrder α] (ps : List α) : List α :=
  List.insertionSort (· ≤ ·) ps

/-- Embedding of one row of `sorted_pool_probs[:, -1] -
sorted_pool_probs[:, -2]`: the top-1 probability minus the top-2
probability. -/
def marginRow {α : Type} [LinearOrderedField α] [Inhabited α]
    (ps : List α) : α :=
  (sortedRow ps).getD (ps.length - 1) default
    - (sortedRow ps).getD (ps.length - 2) default

/-- The per-example margins `pool_probs_diff`. -/
def poolMargins {α : Type} [LinearOrderedField α] [Inhabited α]
    (pool_probs : List (List α)) : List α :=
  pool_probs.map marginRow

/-- Embedding of the margin criterion: `assert min(pool_probs_diff) > 0.`
(an `AssertionError` when some margin is `≤ 0`), then
`onp.argsort(pool_probs_diff)[:FLAGS.n_extra]` — the `n_extra`
smallest-margin indices. -/
def marginSelect {α : Type} [LinearOrderedField α] [Inhabited α]
    (pool_probs : List (List α)) (n_extra : ℕ) : Except String (List ℕ) :=
  if ∀ m ∈ poolMargins pool_probs, 0 < m then
    Except.ok ((argsort (poolMargins pool_probs)).take n_extra)
  else
    Except.error "InvariantViolation"

/-- C6: the margin score of a pool example is its top-1 softmax
probability minus its top-2 probability — on probabilities
`[[0.9, 0.1], [0.5, 0.5]]` the margins are `[0.8, 0]` — selection keeps
the `k` smallest-margin examples, and the sampler fails with the
assertion-style invariant violation (never silently correcting) whenever
some margin is `≤ 0`, a margin of exactly `0` included. -/
theorem margin_select_spec (k : ℕ) :
    marginRow (α := ℚ) [9/10, 1/10] = 8/10 ∧
    marginRow (α := ℚ) [1/2, 1/2] = 0 ∧
    poolMargins (α := ℚ) [[9/10, 1/10], [1/2, 1/2]] = [8/10, 0] ∧
    marginSelect (α := ℚ) [[9/10, 1/10], [1/2, 1/2]] k
      = Except.error "InvariantViolation" ∧
    (∀ pool_probs : List (List ℝ), (∃ m ∈ poolMargins pool_probs, m ≤ 0) →
      marginSelect pool_probs k = Except.error "InvariantViolation") ∧
    (∀ (pool_probs : List (List ℝ)) (sel : List ℕ),
      marginSelect pool_probs k = Except.ok sel →
      ∀ i ∈ sel, ∀ j, j < pool_probs.length → j ∉ sel →
        (poolMargins pool_probs).getD i 0 ≤ (poolMargins pool_probs).getD j 0) := by
  have hpm : poolMargins (α := ℚ) [[9/10, 1/10], [1/2, 1/2]] = [8/10, 0] := by
    norm_num [poolMargins, marginRow, sortedRow, List.insertionSort,
      List.orderedInsert]
  refine ⟨?_, ?_, hpm, ?_, ?_, ?_⟩
  · norm_num [marginRow, sortedRow, List.insertionSort, List.orderedInsert]
  · norm_num [marginRow, sortedRow, List.insertionSort, List.orderedInsert]
  · rw [marginSelect, if_neg]
    rw [hpm]
    intro hall
    have h0 : (0 : ℚ) < 0 := hall 0 (by simp)
    exact absurd h0 (by norm_num)
  · intro pool_probs hex
    rw [marginSelect, if_neg]
    rcases hex with ⟨m, hm, hm0⟩
    intro hall
    exact absurd (hall m hm) (not_lt.mpr hm0)
  · intro pool_probs sel hsel i hi j hj hjnot
    rw [marginSelect] at hsel
    by_cases hall : ∀ m ∈ poolMargins pool_probs, 0 < m
    · rw [if_pos hall] at hsel
      have hseleq : (argsort (poolMargins pool_probs)).take k = sel :=
        Except.ok.inj hsel
      subst hseleq
      have hmlen : (poolMargins pool_probs).length = pool_probs.length := by
        simp [poolMargins]
      have hdom := take_pairwise_dominates
        (argsort_sorted (poolMargins pool_probs))
        (argsort_perm (poolMargins pool_probs)) i hi j
        (by rw [hmlen]; exact hj) hjnot
      simpa [scoreLe, default] using hdom
    · rw [if_neg hall] at hsel
      exact absurd hsel (by simp)

/-- Witness for `margin_select_spec`: one pool example with the degenerate
probability row `[1/2, 1/2]` (margin exactly `0`) makes the sampler fail. -/
theorem margin_select_spec_witness :
    (∃ m ∈ poolMargins [[(1 : ℝ)/2, 1/2]], m ≤ 0) ∧
    marginSelect [[(1 : ℝ)/2, 1/2]] 3 = Except.error "InvariantViolation" := by
  have hm : marginRow (α := ℝ) [1/2, 1/2] = 0 := by
    norm_num [marginRow, sortedRow, List.insertionSort, List.orderedInsert]
  have hex : ∃ m ∈ poolMargins [[(1 : ℝ)/2, 1/2]], m ≤ 0 :=
    ⟨marginRow [1/2, 1/2], by simp [poolMargins], by rw [hm]⟩
  exact ⟨hex, (margin_select_spec 3).2.2.2.2.1 [[(1 : ℝ)/2, 1/2]] hex⟩

/-- Tail of the embedding of `np.argmax` on one row: scan the remaining
components, keeping the index of the first occurrence of the running
maximum. -/
def argmaxFrom {α : Type} [LinearOrder α] :
    List α → α → ℕ → ℕ → ℕ
  | [], _, best, _ => best
  | y :: ys, cur, best, i =>
    if cur < y then argmaxFrom ys y i (i + 1)
    else argmaxFrom ys cur best (i + 1)

/-- Embedding of `np.argmax` on one row: the first index attaining the
maximum (`0` on an empty row). -/
def argmaxIdx {α : Type} [LinearOrder α] : List α → ℕ
  | [] => 0
  | x :: ys => argmaxFrom ys x 0 1

/-- Embedding of the pool diagnostic in `main`: predicted labels are the
per-row argmax of the pool logits, true labels the per-row argmax of the
one-hot pool labels, and the counts of `pool_correct_indices` and
`pool_incorrect_indices` are the numbers of positions where the two label
vectors agree and disagree. -/
def poolCounts {α : Type} [LinearOrder α]
    (pool_logits pool_labels : List (List α)) : ℕ × ℕ :=
  let pool_predicted_labels := pool_logits.map argmaxIdx
  let pool_true_labels := pool_labels.map argmaxIdx
  let z := pool_true_labels.zip pool_predicted_labels
  (z.countP (fun p => p.1 == p.2), z.countP (fun p => !(p.1 == p.2)))

lemma countP_add_countP_not {β : Type} (l : List β) (p : β → Bool) :
    l.countP p + l.countP (fun a => !(p a)) = l.length := by
  induction l with
  | nil => simp
  | cons x xs ih =>
    by_cases h : p x = true
    · simp [List.countP_cons, h, ← ih]
      omega
    · simp [List.countP_cons, h, ← ih]
      omega

/-- C9: the counts of correctly and incorrectly classified pool examples
always sum to the pool size, so the assertion in `main` holds for every
logits/labels input of matching length. -/
theorem pool_counts_sum (pool_logits pool_labels : List (List ℝ))
    (hlen : pool_logits.length = pool_labels.length) :
    (poolCounts pool_logits pool_labels).1
        + (poolCounts pool_logits pool_labels).2
      = pool_labels.length := by
  unfold poolCounts
  rw [countP_add_countP_not, List.length_zip, List.length_map,
    List.length_map, hlen, min_self]

/-- Witness for `pool_counts_sum` on a concrete two-example pool. -/
theorem pool_counts_sum_witness :
    ([[(1 : ℝ), 0], [0, 1]].length = [[(0 : ℝ), 1], [1, 0]].length) ∧
    (poolCounts [[(1 : ℝ), 0], [0, 1]] [[(0 : ℝ), 1], [1, 0]]).1
        + (poolCounts [[(1 : ℝ), 0], [0, 1]] [[(0 : ℝ), 1], [1, 0]]).2
      = [[(0 : ℝ), 1], [1, 0]].length :=
  ⟨rfl, pool_counts_sum [[(1 : ℝ), 0], [0, 1]] [[(0 : ℝ), 1], [1, 0]] rfl⟩

/-- A Python value of the two types that appear in the `orders` expression
of `compute_epsilon`: a list of numbers, or a `range` object. -/
inductive PyVal where
  | pylist : List ℚ → PyVal
  | pyrange : ℕ → ℕ → PyVal

/-- Python 3 semantics of `+` on the values of `PyVal`: list concatenation
is defined only between two lists; `list + range` raises `TypeError`. -/
def pyAdd : PyVal → PyVal → Except String PyVal
  | PyVal.pylist a, PyVal.pylist b => Except.ok (PyVal.pylist (a ++ b))
  | _, _ => Except.error "TypeError"

/-- Embedding of `np.linspace(lo, hi, num)` (exact rational grid). -/
def npLinspace (lo hi : ℚ) (num : ℕ) : List ℚ :=
  (List.range num).map (fun k => lo + (hi - lo) * k / (num - 1))

/-- Embedding of `compute_epsilon(steps, num_examples, target_delta)`.
The external accountant functions `compute_rdp` and `get_privacy_spent`
from `tensorflow_privacy` are abstract parameters.  The first component
records whether `warnings.warn` fired; the second is the result of the
remaining body: the sampling ratio `q = batch_size / num_examples` is
computed, then `orders = list(np.linspace(1.1, 10.9, 99)) + range(11, 64)`
is evaluated under Python 3 semantics (`pyAdd`), and only on success are
the accountant functions reached. -/
def compute_epsilon
    (compute_rdp : ℚ → ℚ → ℕ → List ℚ → List ℝ)
    (get_privacy_spent : List ℚ → List ℝ → ℚ → ℝ)
    (batch_size : ℕ) (noise_multiplier : ℚ)
    (steps : ℕ) (num_examples : ℕ) (target_delta : ℚ) :
    Bool × Except String ℝ :=
  let warned := decide ((num_examples : ℚ) * target_delta > 1)
  let q : ℚ := (batch_size : ℚ) / (num_examples : ℚ)
  let orders := pyAdd (PyVal.pylist (npLinspace (11/10) (109/10) 99))
    (PyVal.pyrange 11 64)
  match orders with
  | Except.ok (PyVal.pylist os) =>
    (warned, Except.ok (get_privacy_spent os
      (compute_rdp q noise_multiplier steps os) target_delta))
  | _ => (warned, Except.error "TypeError")

/-- C4 (code bug exhibit): `compute_epsilon` records the warning exactly
when `num_examples * target_delta > 1`, but under Python 3 semantics the
expression `list(np.linspace(1.1, 10.9, 99)) + range(11, 64)` raises
`TypeError` (a `list` cannot be concatenated with a `range` object), so
every call fails instead of returning an epsilon. -/
theorem compute_epsilon_py3_type_error
    (compute_rdp : ℚ → ℚ → ℕ → List ℚ → List ℝ)
    (get_privacy_spent : List ℚ → List ℝ → ℚ → ℝ)
    (batch_size : ℕ) (noise_multiplier : ℚ)
    (steps : ℕ) (num_examples : ℕ) (target_delta : ℚ) :
    ((compute_epsilon compute_rdp get_privacy_spent batch_size
        noise_multiplier steps num_examples target_delta).1 = true
      ↔ (num_examples : ℚ) * target_delta > 1) ∧
    (compute_epsilon compute_rdp get_privacy_spent batch_size
        noise_multiplier steps num_examples target_delta).2
      = Except.error "TypeError" := by
  constructor
  · exact decide_eq_true_iff
  · rfl

/-- Minimum of a list of reals (`0` on the empty list, which the
accountant never passes). -/
def listMin : List ℝ → ℝ
  | [] => 0
  | [x] => x
  | x :: xs => min x (listMin xs)

lemma listMin_le_pointwise (f g : ℝ → ℝ) (l : List ℝ)
    (h : ∀ x ∈ l, f x ≤ g x) :
    listMin (l.map f) ≤ listMin (l.map g) := by
  induction l with
  | nil => simp [listMin]
  | cons x xs ih =>
    cases xs with
    | nil => simpa [listMin] using h x (by simp)
    | cons y ys =>
      have hx := h x (by simp)
      have hih := ih (fun z hz => h z (by simp [hz]))
      show min (f x) (listMin ((y :: ys).map f))
        ≤ min (g x) (listMin ((y :: ys).map g))
      exact min_le_min hx hih

/-- Modelled from the spec: the accountant internals `compute_rdp` and
`get_privacy_spent` live in `tensorflow_privacy`, outside this
repository's sources.  Per the spec, the accountant evaluates the RDP of
`steps` compositions of a (subsampled) Gaussian mechanism — RDP composes
additively, so the total at order `a` is `steps * rho a`, with `rho a` the
per-step RDP at the given noise multiplier and sampling ratio — and
converts the tightest bound over the candidate orders to an (ε, δ)
guarantee by the standard conversion `ε = min over orders of
(rdp a + log(1/δ)/(a-1))`. -/
noncomputable def rdpEpsilon (rho : ℝ → ℝ) (steps : ℕ)
    (target_delta : ℝ) (orders : List ℝ) : ℝ :=
  listMin (orders.map
    (fun a => steps * rho a + Real.log (1 / target_delta) / (a - 1)))

/-- C8: for a per-step RDP function that is nonnegative on the candidate
orders (as Rényi divergences are), the computed epsilon is monotonically
non-decreasing in `steps`; and when a larger noise multiplier yields a
pointwise smaller per-step RDP (`rho'` versus `rho`), the computed epsilon
is monotonically non-increasing in the noise multiplier. -/
theorem compute_epsilon_monotone (rho rho' : ℝ → ℝ) (steps steps' : ℕ)
    (target_delta : ℝ) (orders : List ℝ)
    (hnn : ∀ a ∈ orders, 0 ≤ rho a)
    (hsteps : steps ≤ steps')
    (hsigma : ∀ a ∈ orders, rho' a ≤ rho a) :
    rdpEpsilon rho steps target_delta orders
        ≤ rdpEpsilon rho steps' target_delta orders ∧
    rdpEpsilon rho' steps target_delta orders
        ≤ rdpEpsilon rho steps target_delta orders := by
  constructor
  · apply listMin_le_pointwise
    intro a ha
    have hc : ((steps : ℝ)) ≤ (steps' : ℝ) := Nat.cast_le.mpr hsteps
    have := mul_le_mul_of_nonneg_right hc (hnn a ha)
    linarith
  · apply listMin_le_pointwise
    intro a ha
    have := mul_le_mul_of_nonneg_left (hsigma a ha)
      (Nat.cast_nonneg (α := ℝ) steps)
    linarith

/-- Witness for `compute_epsilon_monotone` with the per-step RDP functions
`a` and `a / 2` on orders `[2, 3]`. -/
theorem compute_epsilon_monotone_witness :
    ((∀ a ∈ [(2 : ℝ), 3], 0 ≤ a) ∧ 1 ≤ 2 ∧
      (∀ a ∈ [(2 : ℝ), 3], a / 2 ≤ a)) ∧
    (rdpEpsilon (fun a => a) 1 (1/2) [2, 3]
        ≤ rdpEpsilon (fun a => a) 2 (1/2) [2, 3] ∧
      rdpEpsilon (fun a => a / 2) 1 (1/2) [2, 3]
        ≤ rdpEpsilon (fun a => a) 1 (1/2) [2, 3]) := by
  have h1 : ∀ a ∈ [(2 : ℝ), 3], 0 ≤ a := by
    intro a ha
    rcases List.mem_cons.mp ha with rfl | ha
    · norm_num
    · rcases List.mem_singleton.mp ha with rfl
      norm_num
  have h2 : ∀ a ∈ [(2 : ℝ), 3], a / 2 ≤ a := by
    intro a ha
    rcases List.mem_cons.mp ha with rfl | ha
    · norm_num
    · rcases List.mem_singleton.mp ha with rfl
      norm_num
  exact ⟨⟨h1, by norm_num, h2⟩,
    compute_epsilon_monotone (fun a => a) (fun a => a / 2) 1 2 (1/2) [2, 3]
      h1 (by norm_num) h2⟩

end AdpSvhn
